import Mathlib

/-!
Verification of the `cluster` Go package (hierarchical agglomerative
clustering of term vectors).  The definitions below are a shallow embedding
of `cluster.go`: Go maps become finitely supported functions, Go `float64`
becomes `ℝ`, Go slices become lists, and the two run-time panics reachable
from the public entry points (`make` with negative capacity in `Cluster`,
index-out-of-range in `Interpret`) become `Option.none`.  The worker-pool
similarity computation is embedded sequentially: vectors are never mutated
between a task's dispatch and the completion barrier, so each entry's value
equals the similarity of the vectors at dispatch time.
-/

/-- Go `Vec`: a sparse term vector `M : map[string]int` together with the
cached euclidean norm `Length`, which is only brought in sync by `Renorm`. -/
structure Vec where
  M : String →₀ ℤ
  Length : ℝ

/-- Sum of squared counts of a sparse map (the quantity whose square root
`Renorm` caches). -/
def normSq (m : String →₀ ℤ) : ℤ :=
  m.sum fun _ val => val * val

/-- Go `(*Vec).Renorm`: recompute the cached euclidean norm from `M`. -/
noncomputable def Vec.Renorm (a : Vec) : Vec :=
  { a with Length := Real.sqrt (normSq a.M) }

/-- Go `NewVec`: build the count map from a token list (each occurrence adds
one) and renormalise. -/
noncomputable def NewVec (list : List String) : Vec :=
  Vec.Renorm ⟨list.foldl (fun m key => m + Finsupp.single key 1) 0, 0⟩

/-- Go `(*Vec).Add`: pointwise-add `b`'s counts into `a` (`a.M[key] +=
b.M[key]` over `b`'s keys, which is pointwise addition since absent keys read
as zero), then renormalise. -/
noncomputable def Vec.Add (a : Vec) (b : Vec) : Vec :=
  Vec.Renorm { a with M := a.M + b.M }

/-- The sum `Σ_{key ∈ supp a} a[key] * b[key]` of Go `Vec.Dot`'s loop. -/
def dotSum (a b : String →₀ ℤ) : ℤ :=
  a.sum fun key val => val * b key

/-- Go `Vec.Dot`: inner product, iterating over the smaller of the two maps
(`if len(a.M) > len(b.M) { a, b = b, a }`). -/
def Vec.Dot (a b : Vec) : ℤ :=
  if b.M.support.card < a.M.support.card then dotSum b.M a.M
  else dotSum a.M b.M

/-- Go `Vec.Sim`: cosine similarity, `0` when either cached norm is `0`. -/
noncomputable def Vec.Sim (a b : Vec) : ℝ :=
  if a.Length = 0 ∨ b.Length = 0 then 0
  else (a.Dot b : ℝ) / (a.Length * b.Length)

/-! ### Basic facts about the vector model -/

theorem normSq_nonneg (m : String →₀ ℤ) : 0 ≤ normSq m :=
  Finset.sum_nonneg fun _ _ => mul_self_nonneg _

theorem normSq_eq_sum_sq (m : String →₀ ℤ) :
    (normSq m : ℝ) = ∑ k ∈ m.support, (m k : ℝ) ^ 2 := by
  unfold normSq Finsupp.sum
  push_cast
  exact Finset.sum_congr rfl fun k _ => (sq (m k : ℝ)).symm

theorem normSq_eq_sum_sq_of_subset (m : String →₀ ℤ) (s : Finset String)
    (hs : m.support ⊆ s) : (normSq m : ℝ) = ∑ k ∈ s, (m k : ℝ) ^ 2 := by
  rw [normSq_eq_sum_sq]
  refine Finset.sum_subset hs fun k _ hk => ?_
  rw [Finsupp.not_mem_support_iff.mp hk]
  norm_num

theorem dotSum_eq_sum (a b : String →₀ ℤ) (s : Finset String)
    (hs : a.support ⊆ s) : dotSum a b = ∑ k ∈ s, a k * b k := by
  unfold dotSum Finsupp.sum
  refine Finset.sum_subset hs fun k _ hk => ?_
  show a k * b k = 0
  rw [Finsupp.not_mem_support_iff.mp hk, zero_mul]

theorem dotSum_comm (a b : String →₀ ℤ) : dotSum a b = dotSum b a := by
  rw [dotSum_eq_sum a b (a.support ∪ b.support) Finset.subset_union_left,
    dotSum_eq_sum b a (a.support ∪ b.support) Finset.subset_union_right]
  exact Finset.sum_congr rfl fun k _ => mul_comm _ _

theorem Dot_comm (a b : Vec) : a.Dot b = b.Dot a := by
  unfold Vec.Dot
  rcases lt_trichotomy a.M.support.card b.M.support.card with h | h | h
  · rw [if_neg (by omega), if_pos h, dotSum_comm]
  · rw [if_neg (by omega), if_neg (by omega), dotSum_comm]
  · rw [if_pos h, if_neg (by omega)]

theorem Dot_eq_sum_union (a b : Vec) :
    a.Dot b = ∑ k ∈ a.M.support ∪ b.M.support, a.M k * b.M k := by
  unfold Vec.Dot
  split
  · rw [dotSum_eq_sum b.M a.M (a.M.support ∪ b.M.support) Finset.subset_union_right]
    exact Finset.sum_congr rfl fun k _ => mul_comm _ _
  · exact dotSum_eq_sum a.M b.M _ Finset.subset_union_left

theorem Sim_comm (a b : Vec) : a.Sim b = b.Sim a := by
  unfold Vec.Sim
  by_cases h : a.Length = 0 ∨ b.Length = 0
  · rw [if_pos h, if_pos (Or.symm h)]
  · rw [if_neg h, if_neg (fun hc => h (Or.symm hc)), Dot_comm, mul_comm a.Length]

theorem Sim_of_dot_zero (a b : Vec) (h : a.Dot b = 0) : a.Sim b = 0 := by
  unfold Vec.Sim
  split
  · rfl
  · rw [h]
    norm_num

/-- A vector whose cached norm is in sync with its counts (the state every
vector is in after `NewVec`, `Renorm` or `Add`). -/
def Renormed (a : Vec) : Prop :=
  a.Length = Real.sqrt (normSq a.M)

theorem Sim_nonneg (a b : Vec) (ha : Renormed a) (hb : Renormed b)
    (hpa : ∀ k, 0 ≤ a.M k) (hpb : ∀ k, 0 ≤ b.M k) : 0 ≤ a.Sim b := by
  unfold Vec.Sim
  split
  · exact le_refl 0
  · refine div_nonneg ?_ ?_
    · rw [Dot_eq_sum_union]
      push_cast
      exact Finset.sum_nonneg fun k _ =>
        mul_nonneg (by exact_mod_cast hpa k) (by exact_mod_cast hpb k)
    · rw [ha, hb]
      positivity

theorem Sim_le_one (a b : Vec) (ha : Renormed a) (hb : Renormed b) :
    a.Sim b ≤ 1 := by
  unfold Vec.Sim
  split
  · exact zero_le_one
  · rename_i hne
    push_neg at hne
    have hL : 0 < a.Length * b.Length := by
      rcases lt_or_eq_of_le (by rw [ha]; exact Real.sqrt_nonneg _ : (0:ℝ) ≤ a.Length)
        with h1 | h1
      · rcases lt_or_eq_of_le (by rw [hb]; exact Real.sqrt_nonneg _ : (0:ℝ) ≤ b.Length)
          with h2 | h2
        · exact mul_pos h1 h2
        · exact absurd h2.symm hne.2
      · exact absurd h1.symm hne.1
    rw [div_le_one hL]
    have hcs := Real.sum_mul_le_sqrt_mul_sqrt (a.M.support ∪ b.M.support)
      (fun k => (a.M k : ℝ)) (fun k => (b.M k : ℝ))
    calc (a.Dot b : ℝ)
        = ∑ k ∈ a.M.support ∪ b.M.support, (a.M k : ℝ) * (b.M k : ℝ) := by
          rw [Dot_eq_sum_union]; push_cast; rfl
      _ ≤ Real.sqrt (∑ k ∈ a.M.support ∪ b.M.support, (a.M k : ℝ) ^ 2) *
          Real.sqrt (∑ k ∈ a.M.support ∪ b.M.support, (b.M k : ℝ) ^ 2) := hcs
      _ = a.Length * b.Length := by
          rw [ha, hb,
            normSq_eq_sum_sq_of_subset a.M _ Finset.subset_union_left,
            normSq_eq_sum_sq_of_subset b.M _ Finset.subset_union_right]

theorem Renormed_Renorm (a : Vec) : Renormed a.Renorm := rfl

theorem Renormed_NewVec (list : List String) : Renormed (NewVec list) := rfl

theorem Renormed_Add (a b : Vec) : Renormed (a.Add b) := rfl

theorem foldl_single_nonneg (list : List String) (m : String →₀ ℤ)
    (hm : ∀ k, 0 ≤ m k) :
    ∀ k, 0 ≤ (list.foldl (fun m key => m + Finsupp.single key 1) m) k := by
  induction list generalizing m with
  | nil => exact hm
  | cons key rest ih =>
    refine ih _ fun k => ?_
    rw [Finsupp.add_apply, Finsupp.single_apply]
    split
    · have := hm k
      omega
    · simpa using hm k

theorem NewVec_nonneg (list : List String) : ∀ k, 0 ≤ (NewVec list).M k :=
  foldl_single_nonneg list 0 fun _ => le_refl 0

theorem NewVec_nil_Length : (NewVec []).Length = 0 := by
  show Real.sqrt ((normSq 0 : ℤ) : ℝ) = 0
  rw [normSq, Finsupp.sum_zero_index]
  simp

theorem NewVec_x_Length : (NewVec ["x"]).Length = 1 := by
  show Real.sqrt ((normSq ((0 : String →₀ ℤ) + Finsupp.single "x" 1) : ℤ) : ℝ) = 1
  rw [zero_add, normSq, Finsupp.sum_single_index]
  · norm_num
  · norm_num

/-- C6: after `a.Add(b)` the count map is the pointwise sum and the cached
norm is the square root of the sum of squared union counts; after `NewVec`,
`Renorm` or `Add` the cached norm equals `sqrt (Σ count²)`, so a second
`Renorm` without mutation yields an identical norm (indeed an identical
vector). -/
theorem C6_add_pointwise_and_norm_sync :
    (∀ (a b : Vec) (k : String), (a.Add b).M k = a.M k + b.M k) ∧
    (∀ a b : Vec, (a.Add b).Length =
      Real.sqrt (∑ k ∈ a.M.support ∪ b.M.support, ((a.M k : ℝ) + (b.M k : ℝ)) ^ 2)) ∧
    (∀ list : List String, (NewVec list).Length = Real.sqrt ((normSq (NewVec list).M : ℤ) : ℝ)) ∧
    (∀ a : Vec, a.Renorm.Length = Real.sqrt ((normSq a.M : ℤ) : ℝ)) ∧
    (∀ a : Vec, a.Renorm.Renorm = a.Renorm) := by
  refine ⟨fun a b k => Finsupp.add_apply a.M b.M k, fun a b => ?_,
    fun list => rfl, fun a => rfl, fun a => rfl⟩
  show Real.sqrt ((normSq (a.M + b.M) : ℤ) : ℝ) = _
  rw [normSq_eq_sum_sq_of_subset (a.M + b.M) (a.M.support ∪ b.M.support)
    Finsupp.support_add]
  congr 1
  exact Finset.sum_congr rfl fun k _ => by rw [Finsupp.add_apply]; push_cast; ring

/-- C7: cosine similarity is symmetric; away from zero norms it equals
`Dot / (norm · norm)`; for renormed vectors with nonnegative counts it lies
in `[0, 1]`; and it is `0` whenever either cached norm is `0`. -/
theorem C7_sim_symmetric_range_zero :
    (∀ a b : Vec, a.Sim b = b.Sim a) ∧
    (∀ a b : Vec, a.Length ≠ 0 → b.Length ≠ 0 →
      a.Sim b = (a.Dot b : ℝ) / (a.Length * b.Length)) ∧
    (∀ a b : Vec, Renormed a → Renormed b → (∀ k, 0 ≤ a.M k) → (∀ k, 0 ≤ b.M k) →
      0 ≤ a.Sim b ∧ a.Sim b ≤ 1) ∧
    (∀ a b : Vec, a.Length = 0 ∨ b.Length = 0 → a.Sim b = 0) := by
  refine ⟨Sim_comm, fun a b ha hb => ?_,
    fun a b ha hb hpa hpb => ⟨Sim_nonneg a b ha hb hpa hpb, Sim_le_one a b ha hb⟩,
    fun a b h => ?_⟩
  · unfold Vec.Sim
    rw [if_neg (by tauto)]
  · unfold Vec.Sim
    rw [if_pos h]

/-- Witness for C7 at concrete vectors built by `NewVec`. -/
theorem C7_sim_symmetric_range_zero_witness :
    (0 ≤ (NewVec ["x"]).Sim (NewVec ["x"]) ∧ (NewVec ["x"]).Sim (NewVec ["x"]) ≤ 1) ∧
    (NewVec []).Sim (NewVec ["x"]) = 0 ∧
    (NewVec ["x"]).Sim (NewVec ["x"]) =
      ((NewVec ["x"]).Dot (NewVec ["x"]) : ℝ) /
        ((NewVec ["x"]).Length * (NewVec ["x"]).Length) := by
  refine ⟨C7_sim_symmetric_range_zero.2.2.1 (NewVec ["x"]) (NewVec ["x"])
      (Renormed_NewVec _) (Renormed_NewVec _) (NewVec_nonneg _) (NewVec_nonneg _),
    C7_sim_symmetric_range_zero.2.2.2 (NewVec []) (NewVec ["x"])
      (Or.inl NewVec_nil_Length),
    C7_sim_symmetric_range_zero.2.1 (NewVec ["x"]) (NewVec ["x"])
      (by rw [NewVec_x_Length]; norm_num) (by rw [NewVec_x_Length]; norm_num)⟩

/-! ### The clustering engine -/

/-- Go `simEntry`: an unordered pair of cluster indices with a cached
similarity value. -/
structure SimEntry where
  i : ℕ
  j : ℕ
  val : ℝ

/-- Go `Merge`: one level of the dendrogram; `Left` survives and absorbs
`Right`. -/
structure Merge where
  Left : ℕ
  Right : ℕ
deriving DecidableEq, Repr

/-- Read of `vecs[i]`; in-range in every reachable state. -/
def getVec (vecs : List Vec) (i : ℕ) : Vec :=
  vecs.getD i ⟨0, 0⟩

/-- The argmax scan `maxsim := sims[0]; for _, sim := range sims { if
sim.val > maxsim.val { maxsim = sim } }`. -/
noncomputable def maxEntry (first : SimEntry) (l : List SimEntry) : SimEntry :=
  l.foldl (fun maxsim sim => if sim.val > maxsim.val then sim else maxsim) first

/-- The initial similarity matrix: one entry per `0 ≤ j < i < len(vecs)`, in
the population order of the two nested Go loops, each value computed by the
worker pool before the barrier. -/
noncomputable def initSims (vecs : List Vec) : List SimEntry :=
  (List.range vecs.length).flatMap fun i =>
    (List.range i).map fun j => ⟨i, j, (getVec vecs i).Sim (getVec vecs j)⟩

/-- The per-round update scan: drop entries referencing the absorbed index
`maxsim.j`, recompute entries referencing the survivor `maxsim.i` against the
merged vectors, carry the rest over unchanged. -/
noncomputable def updateSims (vecs : List Vec) (maxsim : SimEntry) :
    List SimEntry → List SimEntry
  | [] => []
  | sim :: rest =>
    if sim.i = maxsim.j ∨ sim.j = maxsim.j then updateSims vecs maxsim rest
    else if sim.i = maxsim.i ∨ sim.j = maxsim.i then
      ⟨sim.i, sim.j, (getVec vecs sim.i).Sim (getVec vecs sim.j)⟩ ::
        updateSims vecs maxsim rest
    else sim :: updateSims vecs maxsim rest

/-- The mutable state of `Cluster`'s loop. -/
structure ClusterState where
  vecs : List Vec
  sims : List SimEntry
  merges : List Merge

/-- One round of `Cluster`: select the most similar pair (`none` models the
`sims[0]` panic on an empty slice, unreachable from `Cluster`), merge `j`
into `i`, update the matrix in place and truncate it to
`len(sims) - (len(vecs) - round - 1)` (untouched stale array positions
survive a too-long truncation, hence the `++ drop`). -/
noncomputable def roundStep (numVecs round : ℕ) (s : ClusterState) :
    Option ClusterState :=
  match s.sims with
  | [] => none
  | first :: rest =>
    let maxsim := maxEntry first (first :: rest)
    let vecs' := s.vecs.set maxsim.i
      ((getVec s.vecs maxsim.i).Add (getVec s.vecs maxsim.j))
    let compacted := updateSims vecs' maxsim (first :: rest)
    let sims' := (compacted ++ (first :: rest).drop compacted.length).take
      ((first :: rest).length - (numVecs - round - 1))
    some ⟨vecs', sims', s.merges ++ [⟨maxsim.i, maxsim.j⟩]⟩

/-- Run `k` consecutive rounds starting at round number `round`. -/
noncomputable def clusterLoop (numVecs : ℕ) :
    ℕ → ℕ → ClusterState → Option ClusterState
  | 0, _, s => some s
  | k + 1, round, s =>
    match roundStep numVecs round s with
    | none => none
    | some s' => clusterLoop numVecs k (round + 1) s'

/-- The state entering round 0. -/
noncomputable def initState (vecs : List Vec) : ClusterState :=
  ⟨vecs, initSims vecs, []⟩

/-- Go `Cluster`.  On an empty input `make([]Merge, 0, len(vecs)-1)` is a
`make` with capacity `-1`, a run-time panic, modelled as `none`. -/
noncomputable def Cluster (vecs : List Vec) : Option (List Merge) :=
  if vecs.length = 0 then none
  else (clusterLoop vecs.length (vecs.length - 1) 0 (initState vecs)).map
    fun s => s.merges

/-! ### The dendrogram interpreter -/

/-- Go `Interpret`'s loop over the merge sequence.  `clusters` starts as the
singletons `[0], …, [len(merges)]`; `total` is `len(merges)`.  An index
outside `clusters` is an index-out-of-range panic in Go, modelled as
`none`. -/
def interpretLoop (total : ℕ) :
    List Merge → List (List ℕ) → List (List ℕ) → Option (List (List ℕ))
  | [], _, flagged => some flagged
  | merge :: rest, clusters, flagged =>
    if merge.Left < clusters.length ∧ merge.Right < clusters.length then
      let left := clusters.getD merge.Left []
      let right := clusters.getD merge.Right []
      let flagged' :=
        if 3 < left.length ∧ 3 < right.length then
          (flagged ++ (if left.length < total / 2 then [left] else [])) ++
            (if right.length < total / 2 then [right] else [])
        else flagged
      interpretLoop total rest (clusters.set merge.Left (left ++ right)) flagged'
    else none

/-- Go `Interpret`: extract the flagged clusters from a merge sequence. -/
def Interpret (merges : List Merge) : Option (List (List ℕ)) :=
  interpretLoop merges.length merges
    ((List.range (merges.length + 1)).map fun i => [i]) []

/-- The interpreter as described by the words of spec §4.4: walk the merges
in order; when both sides' member lists have more than three members, flag
the left side if its size is below `totalMerges/2`, then likewise the right
side; in all cases the left member list absorbs the right one. -/
def interpretSpecLoop (total : ℕ) : List Merge → List (List ℕ) → List (List ℕ)
  | [], _ => []
  | merge :: rest, clusters =>
    let left := clusters.getD merge.Left []
    let right := clusters.getD merge.Right []
    (if 3 < left.length ∧ 3 < right.length then
      (if left.length < total / 2 then [left] else []) ++
        (if right.length < total / 2 then [right] else [])
    else []) ++
      interpretSpecLoop total rest (clusters.set merge.Left (left ++ right))

/-- Spec §4.4's interpreter, starting from the singleton member lists. -/
def InterpretSpec (merges : List Merge) : List (List ℕ) :=
  interpretSpecLoop merges.length merges
    ((List.range (merges.length + 1)).map fun i => [i])

theorem interpretLoop_spec (total : ℕ) (ms : List Merge) :
    ∀ (clusters flagged : List (List ℕ)),
      (∀ m ∈ ms, m.Left < clusters.length ∧ m.Right < clusters.length) →
      interpretLoop total ms clusters flagged =
        some (flagged ++ interpretSpecLoop total ms clusters) := by
  induction ms with
  | nil => intro clusters flagged _; simp [interpretLoop, interpretSpecLoop]
  | cons merge rest ih =>
    intro clusters flagged hwf
    rw [interpretLoop, interpretSpecLoop,
      if_pos (hwf merge (List.mem_cons_self merge rest))]
    rw [ih _ _ (by simpa using fun m hm => hwf m (List.mem_cons_of_mem merge hm))]
    congr 1
    split
    · rw [List.append_assoc, List.append_assoc, List.append_assoc]
    · rw [List.nil_append]

theorem interpretLoop_flag_bounds (total : ℕ) (ms : List Merge) :
    ∀ (clusters flagged out : List (List ℕ)),
      (∀ c ∈ flagged, 3 < c.length ∧ c.length < total / 2) →
      interpretLoop total ms clusters flagged = some out →
      ∀ c ∈ out, 3 < c.length ∧ c.length < total / 2 := by
  induction ms with
  | nil =>
    intro clusters flagged out hflag h
    rw [interpretLoop] at h
    cases h
    exact hflag
  | cons merge rest ih =>
    intro clusters flagged out hflag h
    rw [interpretLoop] at h
    split at h
    · refine ih _ _ _ ?_ h
      intro c hc
      split at hc
      · rename_i hboth
        rcases List.mem_append.mp hc with hc' | hc'
        · rcases List.mem_append.mp hc' with hc'' | hc''
          · exact hflag c hc''
          · split at hc''
            · rw [List.mem_singleton.mp hc'']
              refine ⟨hboth.1, by assumption⟩
            · cases hc''
        · split at hc'
          · rw [List.mem_singleton.mp hc']
            refine ⟨hboth.2, by assumption⟩
          · cases hc'
      · exact hflag c hc
    · cases h

/-- C3: `Interpret` of `[]` is `some []`; every flagged member list has more
than three members, fewer than `totalMerges/2`, and is strictly smaller than
the all-inclusive cluster of `totalMerges + 1` members; and on merge
sequences whose indices address the `len(merges)+1` cluster slots it computes
exactly the flag sequence described by spec §4.4 (both sides `> 3`, then
left side flagged if below `totalMerges/2`, then right side). -/
theorem C3_interpret_flagging :
    Interpret [] = some [] ∧
    (∀ (ms : List Merge) (fl : List (List ℕ)), Interpret ms = some fl →
      ∀ c ∈ fl, 3 < c.length ∧ c.length < ms.length / 2 ∧
        c.length < ms.length + 1) ∧
    (∀ ms : List Merge, (∀ m ∈ ms, m.Left ≤ ms.length ∧ m.Right ≤ ms.length) →
      Interpret ms = some (InterpretSpec ms)) := by
  refine ⟨rfl, fun ms fl h c hc => ?_, fun ms hwf => ?_⟩
  · have hb := interpretLoop_flag_bounds ms.length ms _ [] fl
      (by intro c hc; cases hc) (by rw [Interpret] at h; exact h) c hc
    have : ms.length / 2 ≤ ms.length := Nat.div_le_self _ _
    exact ⟨hb.1, hb.2, by omega⟩
  · rw [Interpret, InterpretSpec, interpretLoop_spec, List.nil_append]
    intro m hm
    rw [List.length_map, List.length_range]
    have := hwf m hm
    omega

/-- Witness for C3 on the one-merge sequence `[{1, 0}]`. -/
theorem C3_interpret_flagging_witness :
    (∀ c ∈ ([] : List (List ℕ)), 3 < c.length ∧
      c.length < ([Merge.mk 1 0] : List Merge).length / 2 ∧
      c.length < ([Merge.mk 1 0] : List Merge).length + 1) ∧
    Interpret [Merge.mk 1 0] = some (InterpretSpec [Merge.mk 1 0]) :=
  ⟨C3_interpret_flagging.2.1 [Merge.mk 1 0] [] (by decide),
    C3_interpret_flagging.2.2 [Merge.mk 1 0] (by decide)⟩

/-- C10: a merge sequence of length at most `9` can never produce a flagged
cluster, because flagging needs a side of more than three members that is
still smaller than `len(merges)/2 ≤ 4`. -/
theorem C10_no_flags_for_short_merge_sequences :
    ∀ (merges : List Merge) (flagged : List (List ℕ)),
      merges.length ≤ 9 → Interpret merges = some flagged → flagged = [] := by
  intro merges flagged hlen h
  have hb := interpretLoop_flag_bounds merges.length merges _ [] flagged
    (by intro c hc; cases hc) (by rw [Interpret] at h; exact h)
  refine List.eq_nil_iff_forall_not_mem.mpr fun c hc => ?_
  have := hb c hc
  omega

/-- Witness for C10 on a two-merge sequence. -/
theorem C10_no_flags_for_short_merge_sequences_witness :
    Interpret [Merge.mk 1 0, Merge.mk 2 1] = some [] ∧
      ([] : List (List ℕ)) = [] :=
  ⟨by decide, C10_no_flags_for_short_merge_sequences [Merge.mk 1 0, Merge.mk 2 1]
    [] (by decide) (by decide)⟩

/-! ### The argmax scan -/

theorem maxEntry_cons (first x : SimEntry) (xs : List SimEntry) :
    maxEntry first (x :: xs) =
      maxEntry (if x.val > first.val then x else first) xs := rfl

theorem maxEntry_nil (first : SimEntry) : maxEntry first [] = first := rfl

theorem maxEntry_ge (first : SimEntry) (l : List SimEntry) :
    first.val ≤ (maxEntry first l).val ∧
      ∀ x ∈ l, x.val ≤ (maxEntry first l).val := by
  induction l generalizing first with
  | nil => exact ⟨le_refl _, fun x hx => absurd hx (List.not_mem_nil x)⟩
  | cons x xs ih =>
    rw [maxEntry_cons]
    rcases ih (if x.val > first.val then x else first) with ⟨h1, h2⟩
    constructor
    · refine le_trans ?_ h1
      split
      · rename_i h
        exact le_of_lt h
      · exact le_refl _
    · intro y hy
      rcases List.mem_cons.mp hy with hy | hy
      · subst hy
        refine le_trans ?_ h1
        split
        · exact le_refl _
        · rename_i h
          exact le_of_not_lt h
      · exact h2 y hy

theorem maxEntry_of_no_gt (first : SimEntry) (l : List SimEntry)
    (h : ∀ x ∈ l, ¬ x.val > first.val) : maxEntry first l = first := by
  induction l with
  | nil => rfl
  | cons x xs ih =>
    rw [maxEntry_cons, if_neg (h x (List.mem_cons_self x xs))]
    exact ih fun y hy => h y (List.mem_cons_of_mem x hy)

/-- The scan returns the first entry attaining the maximum value: either the
initial entry (when nothing is strictly greater), or a list element strictly
greater than the initial entry that every earlier element is strictly
below. -/
theorem maxEntry_first_max (first : SimEntry) (l : List SimEntry) :
    (maxEntry first l = first ∧ ∀ x ∈ l, x.val ≤ first.val) ∨
    (∃ k, l.get? k = some (maxEntry first l) ∧
      first.val < (maxEntry first l).val ∧
      (∀ x ∈ l, x.val ≤ (maxEntry first l).val) ∧
      ∀ m y, m < k → l.get? m = some y → y.val < (maxEntry first l).val) := by
  induction l generalizing first with
  | nil => exact Or.inl ⟨rfl, fun x hx => absurd hx (List.not_mem_nil x)⟩
  | cons x xs ih =>
    rw [maxEntry_cons]
    by_cases hx : x.val > first.val
    · rw [if_pos hx]
      rcases ih x with ⟨heq, hle⟩ | ⟨k, hget, hlt, hle, hfirst⟩
      · refine Or.inr ⟨0, ?_, ?_, ?_, ?_⟩
        · rw [heq]; rfl
        · rw [heq]; exact hx
        · intro y hy
          rw [heq]
          rcases List.mem_cons.mp hy with hy | hy
          · subst hy; exact le_refl _
          · exact hle y hy
        · intro m y hm _; omega
      · refine Or.inr ⟨k + 1, hget, lt_trans hx hlt, ?_, ?_⟩
        · intro y hy
          rcases List.mem_cons.mp hy with hy | hy
          · subst hy; exact le_of_lt hlt
          · exact hle y hy
        · intro m y hm hgy
          match m, hgy with
          | 0, hgy =>
            cases hgy
            exact hlt
          | m' + 1, hgy =>
            exact hfirst m' y (by omega) hgy
    · rw [if_neg hx]
      rcases ih first with ⟨heq, hle⟩ | ⟨k, hget, hlt, hle, hfirst⟩
      · refine Or.inl ⟨heq, fun y hy => ?_⟩
        rcases List.mem_cons.mp hy with hy | hy
        · subst hy; exact le_of_not_lt hx
        · exact hle y hy
      · refine Or.inr ⟨k + 1, hget, hlt, ?_, ?_⟩
        · intro y hy
          rcases List.mem_cons.mp hy with hy | hy
          · subst hy; exact le_trans (le_of_not_lt hx) (le_of_lt hlt)
          · exact hle y hy
        · intro m y hm hgy
          match m, hgy with
          | 0, hgy =>
            cases hgy
            exact lt_of_le_of_lt (le_of_not_lt hx) hlt
          | m' + 1, hgy =>
            exact hfirst m' y (by omega) hgy

theorem maxEntry_mem (first : SimEntry) (l : List SimEntry) (hf : first ∈ l) :
    maxEntry first l ∈ l := by
  rcases maxEntry_first_max first l with ⟨heq, _⟩ | ⟨k, hget, _⟩
  · rw [heq]; exact hf
  · exact List.get?_mem hget

/-! ### Pair bookkeeping for the similarity matrix -/

/-- The unordered pair (stored ordered `i > j`) an entry stands for. -/
def pairKey (e : SimEntry) : ℕ × ℕ := (e.i, e.j)

/-- Whether an entry's pair survives the removal of the absorbed index `q`. -/
def survives (q : ℕ) (p : ℕ × ℕ) : Bool := decide (p.1 ≠ q ∧ p.2 ≠ q)

theorem updateSims_map_pairKey (vecs : List Vec) (m : SimEntry) :
    ∀ l : List SimEntry,
      (updateSims vecs m l).map pairKey = (l.map pairKey).filter (survives m.j)
  | [] => rfl
  | sim :: rest => by
    rw [updateSims]
    split
    · rename_i h
      rw [List.map_cons, List.filter_cons, if_neg (by simp [survives, pairKey]; omega),
        updateSims_map_pairKey vecs m rest]
    · rename_i h
      split
      · rw [List.map_cons, List.map_cons, List.filter_cons,
          if_pos (by simp [survives, pairKey]; omega),
          updateSims_map_pairKey vecs m rest]
        rfl
      · rw [List.map_cons, List.map_cons, List.filter_cons,
          if_pos (by simp [survives, pairKey]; omega),
          updateSims_map_pairKey vecs m rest]

theorem updateSims_not_touch (vecs : List Vec) (m : SimEntry) :
    ∀ l : List SimEntry, ∀ e ∈ updateSims vecs m l, e.i ≠ m.j ∧ e.j ≠ m.j
  | [] => fun e he => absurd he (List.not_mem_nil e)
  | sim :: rest => by
    rw [updateSims]
    split
    · exact updateSims_not_touch vecs m rest
    · rename_i h
      push_neg at h
      split
      · intro e he
        rcases List.mem_cons.mp he with he | he
        · subst he; exact h
        · exact updateSims_not_touch vecs m rest e he
      · intro e he
        rcases List.mem_cons.mp he with he | he
        · subst he; exact h
        · exact updateSims_not_touch vecs m rest e he

theorem updateSims_source (vecs : List Vec) (m : SimEntry) :
    ∀ l : List SimEntry, ∀ e ∈ updateSims vecs m l,
      ∃ e₀ ∈ l, e.i = e₀.i ∧ e.j = e₀.j
  | [] => fun e he => absurd he (List.not_mem_nil e)
  | sim :: rest => by
    rw [updateSims]
    split
    · intro e he
      rcases updateSims_source vecs m rest e he with ⟨e₀, h₀, hij⟩
      exact ⟨e₀, List.mem_cons_of_mem sim h₀, hij⟩
    · split
      · intro e he
        rcases List.mem_cons.mp he with he | he
        · subst he
          exact ⟨sim, List.mem_cons_self sim rest, rfl, rfl⟩
        · rcases updateSims_source vecs m rest e he with ⟨e₀, h₀, hij⟩
          exact ⟨e₀, List.mem_cons_of_mem sim h₀, hij⟩
      · intro e he
        rcases List.mem_cons.mp he with he | he
        · subst he
          exact ⟨e, List.mem_cons_self e rest, rfl, rfl⟩
        · rcases updateSims_source vecs m rest e he with ⟨e₀, h₀, hij⟩
          exact ⟨e₀, List.mem_cons_of_mem sim h₀, hij⟩

theorem updateSims_carry (vecs : List Vec) (m : SimEntry) :
    ∀ l : List SimEntry, ∀ e ∈ l, ¬(e.i = m.j ∨ e.j = m.j) →
      ¬(e.i = m.i ∨ e.j = m.i) → e ∈ updateSims vecs m l
  | [] => fun e he => absurd he (List.not_mem_nil e)
  | sim :: rest => by
    intro e he hj hi
    rw [updateSims]
    rcases List.mem_cons.mp he with he | he
    · subst he
      rw [if_neg hj, if_neg hi]
      exact List.mem_cons_self e _
    · split
      · exact updateSims_carry vecs m rest e he hj hi
      · split
        · exact List.mem_cons_of_mem _ (updateSims_carry vecs m rest e he hj hi)
        · exact List.mem_cons_of_mem _ (updateSims_carry vecs m rest e he hj hi)

theorem updateSims_recompute (vecs : List Vec) (m : SimEntry) :
    ∀ l : List SimEntry, ∀ e ∈ l, ¬(e.i = m.j ∨ e.j = m.j) →
      (e.i = m.i ∨ e.j = m.i) →
      (⟨e.i, e.j, (getVec vecs e.i).Sim (getVec vecs e.j)⟩ : SimEntry) ∈
        updateSims vecs m l
  | [] => fun e he => absurd he (List.not_mem_nil e)
  | sim :: rest => by
    intro e he hj hi
    rw [updateSims]
    rcases List.mem_cons.mp he with he | he
    · subst he
      rw [if_neg hj, if_pos hi]
      exact List.mem_cons_self _ _
    · split
      · exact updateSims_recompute vecs m rest e he hj hi
      · split
        · exact List.mem_cons_of_mem _ (updateSims_recompute vecs m rest e he hj hi)
        · exact List.mem_cons_of_mem _ (updateSims_recompute vecs m rest e he hj hi)

theorem updateSims_vals (vecs : List Vec) (m : SimEntry) :
    ∀ l : List SimEntry, ∀ e ∈ updateSims vecs m l,
      (∃ e₀ ∈ l, e = e₀) ∨ e.val = (getVec vecs e.i).Sim (getVec vecs e.j)
  | [] => fun e he => absurd he (List.not_mem_nil e)
  | sim :: rest => by
    rw [updateSims]
    split
    · intro e he
      rcases updateSims_vals vecs m rest e he with ⟨e₀, h₀, heq⟩ | hv
      · exact Or.inl ⟨e₀, List.mem_cons_of_mem sim h₀, heq⟩
      · exact Or.inr hv
    · split
      · intro e he
        rcases List.mem_cons.mp he with he | he
        · subst he
          exact Or.inr rfl
        · rcases updateSims_vals vecs m rest e he with ⟨e₀, h₀, heq⟩ | hv
          · exact Or.inl ⟨e₀, List.mem_cons_of_mem sim h₀, heq⟩
          · exact Or.inr hv
      · intro e he
        rcases List.mem_cons.mp he with he | he
        · subst he
          exact Or.inl ⟨e, List.mem_cons_self e rest, rfl⟩
        · rcases updateSims_vals vecs m rest e he with ⟨e₀, h₀, heq⟩ | hv
          · exact Or.inl ⟨e₀, List.mem_cons_of_mem sim h₀, heq⟩
          · exact Or.inr hv

/-! ### Active indices -/

/-- The absorbed (`Right`) indices of a merge history. -/
def rightsOf (ms : List Merge) : List ℕ := ms.map Merge.Right

/-- The indices still active after a merge history over `n` initial
clusters: those never absorbed. -/
def activeOf (n : ℕ) (ms : List Merge) : Finset ℕ :=
  (Finset.range n).filter fun x => x ∉ rightsOf ms

theorem mem_activeOf {n x : ℕ} {ms : List Merge} :
    x ∈ activeOf n ms ↔ x < n ∧ x ∉ rightsOf ms := by
  simp [activeOf]

theorem activeOf_append (n : ℕ) (ms : List Merge) (m : Merge) :
    activeOf n (ms ++ [m]) = (activeOf n ms).erase m.Right := by
  ext x
  rw [Finset.mem_erase, mem_activeOf, mem_activeOf, rightsOf, List.map_append,
    List.mem_append]
  simp [rightsOf]
  tauto

theorem activeOf_card (n : ℕ) (ms : List Merge)
    (hnd : (rightsOf ms).Nodup) (hlt : ∀ m ∈ ms, m.Right < n) :
    (activeOf n ms).card = n - ms.length := by
  have hset : activeOf n ms = Finset.range n \ (rightsOf ms).toFinset := by
    ext x
    rw [mem_activeOf, Finset.mem_sdiff, Finset.mem_range, List.mem_toFinset]
  rw [hset, Finset.card_sdiff, Finset.card_range, List.toFinset_card_of_nodup hnd,
    rightsOf, List.length_map]
  intro x hx
  rw [List.mem_toFinset, rightsOf, List.mem_map] at hx
  rcases hx with ⟨m, hm, rfl⟩
  rw [Finset.mem_range]
  exact hlt m hm

/-! ### The round invariant -/

/-- The invariant holding at every round boundary of `Cluster`'s loop:
`round` merges are recorded, their absorbed indices are distinct and each is
smaller than its surviving partner, and the similarity collection holds
exactly one entry (stored `i > j`) per unordered pair of active indices. -/
structure RoundInv (n round : ℕ) (s : ClusterState) : Prop where
  vlen : s.vecs.length = n
  mlen : s.merges.length = round
  rnodup : (rightsOf s.merges).Nodup
  mlt : ∀ m ∈ s.merges, m.Right < m.Left ∧ m.Left < n
  snodup : (s.sims.map pairKey).Nodup
  sdom : ∀ e ∈ s.sims, e.j < e.i ∧ e.i ∈ activeOf n s.merges ∧
    e.j ∈ activeOf n s.merges
  scomplete : ∀ p q : ℕ, p ∈ activeOf n s.merges → q ∈ activeOf n s.merges →
    q < p → (p, q) ∈ s.sims.map pairKey

theorem RoundInv.active_card {n round : ℕ} {s : ClusterState} (h : RoundInv n round s) :
    (activeOf n s.merges).card = n - round := by
  rw [activeOf_card n s.merges h.rnodup fun m hm => lt_trans (h.mlt m hm).1
    (h.mlt m hm).2, h.mlen]



/-- The other endpoint of a pair touching `q`. -/
def otherEnd (q : ℕ) (p : ℕ × ℕ) : ℕ := if p.1 = q then p.2 else p.1

/-- Under the round invariant, the entries touching an active index `q` are
in bijection (via their other endpoint) with the remaining active indices:
there are `card(active) - 1` of them. -/
theorem length_filter_touching {n round : ℕ} {s : ClusterState}
    (hinv : RoundInv n round s) {q : ℕ} (hq : q ∈ activeOf n s.merges) :
    ((s.sims.map pairKey).filter fun p => !(survives q p)).length =
      (activeOf n s.merges).card - 1 := by
  set A := activeOf n s.merges with hA
  set P := s.sims.map pairKey with hP
  set T := P.filter fun p => !(survives q p) with hT
  have hTnodup : T.Nodup := hinv.snodup.filter _
  have hTmem : ∀ p ∈ T, p.2 < p.1 ∧ p.1 ∈ A ∧ p.2 ∈ A ∧ (p.1 = q ∨ p.2 = q) := by
    intro p hp
    rw [hT, List.mem_filter] at hp
    rcases hp with ⟨hpP, hptouch⟩
    rw [hP, List.mem_map] at hpP
    rcases hpP with ⟨e, he, rfl⟩
    rcases hinv.sdom e he with ⟨h1, h2, h3⟩
    refine ⟨h1, h2, h3, ?_⟩
    simp only [survives, Bool.not_eq_true', decide_eq_false_iff_not, pairKey] at hptouch
    push_neg at hptouch
    tauto
  have hshape : ∀ p ∈ T,
      (p.1 = q ∧ p.2 = otherEnd q p ∧ otherEnd q p < q) ∨
      (p.1 = otherEnd q p ∧ p.2 = q ∧ q < otherEnd q p) := by
    intro p hp
    rcases hTmem p hp with ⟨h1, _, _, h4 | h4⟩
    · rw [otherEnd, if_pos h4]
      exact Or.inl ⟨h4, rfl, by omega⟩
    · have h5 : p.1 ≠ q := by omega
      rw [otherEnd, if_neg h5]
      exact Or.inr ⟨rfl, h4, by omega⟩
  have hcard : T.toFinset.card = (A.erase q).card := by
    refine Finset.card_nbij (otherEnd q) ?_ ?_ ?_
    · intro p hp
      rw [List.mem_toFinset] at hp
      rcases hTmem p hp with ⟨h1, h2, h3, _⟩
      rcases hshape p hp with ⟨hs1, hs2, hs3⟩ | ⟨hs1, hs2, hs3⟩
      · rw [Finset.mem_erase]
        exact ⟨by omega, hs2 ▸ h3⟩
      · rw [Finset.mem_erase]
        exact ⟨by omega, hs1 ▸ h2⟩
    · intro p hp p' hp' hf
      rw [Finset.mem_coe, List.mem_toFinset] at hp hp'
      rcases hshape p hp with ⟨ha1, ha2, ha3⟩ | ⟨ha1, ha2, ha3⟩ <;>
        rcases hshape p' hp' with ⟨hb1, hb2, hb3⟩ | ⟨hb1, hb2, hb3⟩
      · exact Prod.ext (by omega) (by omega)
      · omega
      · omega
      · exact Prod.ext (by omega) (by omega)
    · intro b hb
      rw [Finset.mem_coe, Finset.mem_erase] at hb
      rcases hb with ⟨hbq, hbA⟩
      rcases lt_or_gt_of_ne hbq with hlt | hgt
      · refine ⟨(q, b), ?_, ?_⟩
        · show _ ∈ T.toFinset
          rw [List.mem_toFinset, hT, List.mem_filter]
          refine ⟨hinv.scomplete q b hq hbA hlt, ?_⟩
          simp [survives]
        · rw [otherEnd, if_pos rfl]
      · refine ⟨(b, q), ?_, ?_⟩
        · show _ ∈ T.toFinset
          rw [List.mem_toFinset, hT, List.mem_filter]
          refine ⟨hinv.scomplete b q hbA hq hgt, ?_⟩
          simp [survives]
        · rw [otherEnd, if_neg (by omega)]
  rw [← List.toFinset_card_of_nodup hTnodup, hcard, Finset.card_erase_of_mem hq]

theorem roundStep_cons (n round : ℕ) (sv : List Vec) (first : SimEntry)
    (rest : List SimEntry) (sm : List Merge) :
    roundStep n round ⟨sv, first :: rest, sm⟩ =
      some ⟨sv.set (maxEntry first (first :: rest)).i
          ((getVec sv (maxEntry first (first :: rest)).i).Add
            (getVec sv (maxEntry first (first :: rest)).j)),
        ((updateSims
            (sv.set (maxEntry first (first :: rest)).i
              ((getVec sv (maxEntry first (first :: rest)).i).Add
                (getVec sv (maxEntry first (first :: rest)).j)))
            (maxEntry first (first :: rest)) (first :: rest)) ++
          (first :: rest).drop
            (updateSims
              (sv.set (maxEntry first (first :: rest)).i
                ((getVec sv (maxEntry first (first :: rest)).i).Add
                  (getVec sv (maxEntry first (first :: rest)).j)))
              (maxEntry first (first :: rest)) (first :: rest)).length).take
          ((first :: rest).length - (n - round - 1)),
        sm ++ [⟨(maxEntry first (first :: rest)).i,
          (maxEntry first (first :: rest)).j⟩]⟩ := rfl

/-- One invariant-preserving round: under `RoundInv`, `roundStep` succeeds,
the truncation exactly removes the dropped entries, and the invariant holds
again with one more merge recorded. -/
theorem roundStep_inv {n round : ℕ} {s : ClusterState} {first : SimEntry}
    {rest : List SimEntry} (hs : s.sims = first :: rest)
    (hinv : RoundInv n round s) :
    ∃ s' : ClusterState,
      roundStep n round s = some s' ∧
      s'.vecs = s.vecs.set (maxEntry first (first :: rest)).i
        ((getVec s.vecs (maxEntry first (first :: rest)).i).Add
          (getVec s.vecs (maxEntry first (first :: rest)).j)) ∧
      s'.sims = updateSims s'.vecs (maxEntry first (first :: rest))
        (first :: rest) ∧
      s'.merges = s.merges ++ [⟨(maxEntry first (first :: rest)).i,
        (maxEntry first (first :: rest)).j⟩] ∧
      RoundInv n (round + 1) s' := by
  obtain ⟨sv, ssims, sm⟩ := s
  simp only at hs
  subst hs
  set maxsim := maxEntry first (first :: rest) with hmax
  have hmem : maxsim ∈ first :: rest :=
    maxEntry_mem first _ (List.mem_cons_self first rest)
  obtain ⟨hji, hiA, hjA⟩ := hinv.sdom maxsim hmem
  set A := activeOf n sm with hA
  set vecs' := sv.set maxsim.i
    ((getVec sv maxsim.i).Add (getVec sv maxsim.j)) with hv
  set compacted := updateSims vecs' maxsim (first :: rest) with hcomp
  have hsplit := List.length_eq_length_filter_add
    (l := (first :: rest).map pairKey) (survives maxsim.j)
  have htouch := length_filter_touching hinv hjA
  have hcardA := hinv.active_card
  simp only at htouch hcardA
  have hclen : compacted.length = (first :: rest).length - (n - round - 1) := by
    have h1 : compacted.length =
        (((first :: rest).map pairKey).filter (survives maxsim.j)).length := by
      rw [hcomp, ← List.length_map (updateSims vecs' maxsim (first :: rest)) pairKey,
        updateSims_map_pairKey]
    rw [List.length_map] at hsplit
    omega
  have htrim : ((compacted ++ (first :: rest).drop compacted.length).take
      ((first :: rest).length - (n - round - 1))) = compacted := by
    rw [← hclen, List.take_left]
  refine ⟨⟨vecs', compacted, sm ++ [⟨maxsim.i, maxsim.j⟩]⟩, ?_, rfl, rfl, rfl, ?_⟩
  · rw [roundStep_cons, ← hmax, ← hv, ← hcomp, htrim]
  have hactive' : activeOf n (sm ++ [⟨maxsim.i, maxsim.j⟩]) = A.erase maxsim.j := by
    rw [activeOf_append]
  have hiAn : maxsim.i < n := (mem_activeOf.mp hiA).1
  have hjnotr : maxsim.j ∉ rightsOf sm := (mem_activeOf.mp hjA).2
  have hpairs : compacted.map pairKey =
      ((first :: rest).map pairKey).filter (survives maxsim.j) :=
    updateSims_map_pairKey vecs' maxsim (first :: rest)
  have hvlen : sv.length = n := hinv.vlen
  have hmlen : sm.length = round := hinv.mlen
  have hrnodup2 : (rightsOf sm).Nodup := hinv.rnodup
  have hmlt2 : ∀ m ∈ sm, m.Right < m.Left ∧ m.Left < n := hinv.mlt
  have hsnodup2 : ((first :: rest).map pairKey).Nodup := hinv.snodup
  have hsdom2 : ∀ e ∈ first :: rest, e.j < e.i ∧ e.i ∈ A ∧ e.j ∈ A := hinv.sdom
  have hscomp2 : ∀ p q : ℕ, p ∈ A → q ∈ A → q < p →
      (p, q) ∈ (first :: rest).map pairKey := hinv.scomplete
  refine ⟨?_, ?_, ?_, ?_, ?_, ?_, ?_⟩
  · show vecs'.length = n
    rw [hv, List.length_set]
    exact hvlen
  · show (sm ++ [⟨maxsim.i, maxsim.j⟩] : List Merge).length = round + 1
    rw [List.length_append, hmlen]
    rfl
  · show (rightsOf (sm ++ [⟨maxsim.i, maxsim.j⟩])).Nodup
    simp only [rightsOf, List.map_append, List.map_cons, List.map_nil]
    rw [List.nodup_append]
    refine ⟨hrnodup2, List.nodup_singleton _, ?_⟩
    intro x hx hx'
    rw [List.mem_singleton] at hx'
    subst hx'
    exact hjnotr hx
  · intro m hm
    rcases List.mem_append.mp hm with hm | hm
    · exact hmlt2 m hm
    · rw [List.mem_singleton] at hm
      subst hm
      exact ⟨hji, hiAn⟩
  · show (compacted.map pairKey).Nodup
    rw [hpairs]
    exact hsnodup2.filter _
  · intro e he
    show e.j < e.i ∧ e.i ∈ activeOf n (sm ++ [⟨maxsim.i, maxsim.j⟩]) ∧
      e.j ∈ activeOf n (sm ++ [⟨maxsim.i, maxsim.j⟩])
    rw [hactive']
    rcases updateSims_source vecs' maxsim (first :: rest) e he with ⟨e₀, he₀, hei, hej⟩
    rcases updateSims_not_touch vecs' maxsim (first :: rest) e he with ⟨hni, hnj⟩
    rcases hsdom2 e₀ he₀ with ⟨h1, h2, h3⟩
    rw [hei, hej]
    refine ⟨h1, Finset.mem_erase.mpr ⟨hei ▸ hni, h2⟩,
      Finset.mem_erase.mpr ⟨hej ▸ hnj, h3⟩⟩
  · intro p r hp hr hrp
    show (p, r) ∈ compacted.map pairKey
    rw [hactive'] at hp hr
    rcases Finset.mem_erase.mp hp with ⟨hpne, hpA⟩
    rcases Finset.mem_erase.mp hr with ⟨hrne, hrA⟩
    rw [hpairs, List.mem_filter]
    refine ⟨hscomp2 p r hpA hrA hrp, ?_⟩
    simp [survives, hpne, hrne]

theorem clusterLoop_zero_eq (n round : ℕ) (s : ClusterState) :
    clusterLoop n 0 round s = some s := rfl

theorem clusterLoop_succ (n k round : ℕ) (s : ClusterState) :
    clusterLoop n (k + 1) round s =
      match roundStep n round s with
      | none => none
      | some s' => clusterLoop n k (round + 1) s' := rfl

theorem RoundInv.sims_ne_nil {n round : ℕ} {s : ClusterState}
    (hinv : RoundInv n round s) (h2 : 2 ≤ (activeOf n s.merges).card) :
    ∃ first rest, s.sims = first :: rest := by
  rcases Finset.one_lt_card.mp
    (show 1 < (activeOf n s.merges).card by omega) with ⟨a, ha, b, hb, hab⟩
  have hpair : ∃ p q : ℕ, p ∈ activeOf n s.merges ∧ q ∈ activeOf n s.merges ∧
      q < p := by
    rcases Nat.lt_or_ge a b with h | h
    · exact ⟨b, a, hb, ha, h⟩
    · exact ⟨a, b, ha, hb, by omega⟩
  rcases hpair with ⟨p, q, hp, hq, hqp⟩
  have := hinv.scomplete p q hp hq hqp
  cases hsims : s.sims with
  | nil => rw [hsims] at this; cases this
  | cons first rest => exact ⟨first, rest, rfl⟩

/-- Running `k` rounds from an invariant state succeeds and preserves the
invariant. -/
theorem clusterLoop_inv (n : ℕ) :
    ∀ (k round : ℕ) (s : ClusterState), RoundInv n round s →
      round + k ≤ n - 1 →
      ∃ s', clusterLoop n k round s = some s' ∧ RoundInv n (round + k) s' := by
  intro k
  induction k with
  | zero =>
    intro round s hinv _
    exact ⟨s, rfl, by rwa [Nat.add_zero]⟩
  | succ k ih =>
    intro round s hinv hle
    have hcard := hinv.active_card
    rcases hinv.sims_ne_nil (by omega) with ⟨first, rest, hs⟩
    rcases roundStep_inv hs hinv with ⟨s', hstep, _, _, _, hinv'⟩
    rcases ih (round + 1) s' hinv' (by omega) with ⟨s'', hloop, hinv''⟩
    refine ⟨s'', ?_, ?_⟩
    · rw [clusterLoop_succ, hstep]
      exact hloop
    · have harith : round + 1 + k = round + (k + 1) := by omega
      rwa [harith] at hinv''

theorem activeOf_nil (n : ℕ) : activeOf n [] = Finset.range n := by
  simp [activeOf, rightsOf]

theorem initSims_map_pairKey (vecs : List Vec) :
    (initSims vecs).map pairKey =
      (List.range vecs.length).flatMap fun i =>
        (List.range i).map fun j => (i, j) := by
  rw [initSims, List.map_flatMap]
  congr 1
  funext i
  rw [List.map_map]
  rfl

theorem mem_initSims {vecs : List Vec} {e : SimEntry} :
    e ∈ initSims vecs ↔ ∃ i j, i < vecs.length ∧ j < i ∧
      e = ⟨i, j, (getVec vecs i).Sim (getVec vecs j)⟩ := by
  rw [initSims, List.mem_flatMap]
  constructor
  · rintro ⟨i, hi, he⟩
    rw [List.mem_map] at he
    rcases he with ⟨j, hj, rfl⟩
    exact ⟨i, j, List.mem_range.mp hi, List.mem_range.mp hj, rfl⟩
  · rintro ⟨i, j, hi, hj, rfl⟩
    exact ⟨i, List.mem_range.mpr hi, List.mem_map.mpr ⟨j, List.mem_range.mpr hj, rfl⟩⟩

theorem mem_pairsList {n : ℕ} {p : ℕ × ℕ} :
    (p ∈ (List.range n).flatMap fun i => (List.range i).map fun j => (i, j)) ↔
      p.2 < p.1 ∧ p.1 < n := by
  rw [List.mem_flatMap]
  constructor
  · rintro ⟨i, hi, hp⟩
    rw [List.mem_map] at hp
    rcases hp with ⟨j, hj, rfl⟩
    exact ⟨List.mem_range.mp hj, List.mem_range.mp hi⟩
  · rintro ⟨h1, h2⟩
    exact ⟨p.1, List.mem_range.mpr h2,
      List.mem_map.mpr ⟨p.2, List.mem_range.mpr h1, rfl⟩⟩

theorem nodup_pairsList (n : ℕ) :
    ((List.range n).flatMap fun i => (List.range i).map fun j => (i, j)).Nodup := by
  rw [List.nodup_flatMap]
  refine ⟨fun i _ => ?_, ?_⟩
  · refine List.Nodup.map ?_ (List.nodup_range i)
    intro a b h
    simpa using h
  · refine (List.pairwise_lt_range n).imp ?_
    intro i₁ i₂ hlt x hx₁ hx₂
    rw [List.mem_map] at hx₁ hx₂
    rcases hx₁ with ⟨j₁, _, rfl⟩
    rcases hx₂ with ⟨j₂, _, hx⟩
    rw [Prod.mk.injEq] at hx
    omega

/-- Round 0 of `Cluster` starts in an invariant state. -/
theorem init_inv (vecs : List Vec) :
    RoundInv vecs.length 0 (initState vecs) := by
  refine ⟨rfl, rfl, List.nodup_nil, ?_, ?_, ?_, ?_⟩
  · intro m hm
    cases hm
  · show ((initSims vecs).map pairKey).Nodup
    rw [initSims_map_pairKey]
    exact nodup_pairsList _
  · intro e he
    rcases mem_initSims.mp he with ⟨i, j, hi, hj, rfl⟩
    refine ⟨hj, ?_, ?_⟩ <;>
    · show _ ∈ activeOf vecs.length []
      rw [activeOf_nil, Finset.mem_range]
      first
      | exact hi
      | exact lt_trans hj hi
  · intro p q hp hq hqp
    show (p, q) ∈ (initSims vecs).map pairKey
    rw [initSims_map_pairKey]
    rw [show (initState vecs).merges = [] from rfl, activeOf_nil,
      Finset.mem_range] at hp hq
    exact mem_pairsList.mpr ⟨hqp, hp⟩

/-- C1: `Cluster` completes for every nonempty input, and a single vector
yields the empty merge sequence; but on the empty input the claim fails:
`make([]Merge, 0, len(vecs)-1)` is a `make` with negative capacity, a
run-time panic (`none`), where the spec demands an empty sequence. -/
theorem C1_cluster_totality_and_empty_panic :
    Cluster [] = none ∧
    (∀ vecs : List Vec, vecs ≠ [] → ∃ ms, Cluster vecs = some ms) ∧
    (∀ v : Vec, Cluster [v] = some []) := by
  refine ⟨rfl, fun vecs hne => ?_, fun v => rfl⟩
  have hlen : vecs.length ≠ 0 := fun h => hne (List.length_eq_zero.mp h)
  rcases clusterLoop_inv vecs.length (vecs.length - 1) 0 (initState vecs)
    (init_inv vecs) (by omega) with ⟨s', hloop, _⟩
  refine ⟨s'.merges, ?_⟩
  rw [Cluster, if_neg hlen, hloop]
  rfl

/-- Witness for C1 at a concrete two-vector input. -/
theorem C1_cluster_totality_and_empty_panic_witness :
    ∃ ms, Cluster [NewVec ["x"], NewVec []] = some ms :=
  C1_cluster_totality_and_empty_panic.2.1 [NewVec ["x"], NewVec []] (by simp)

/-- C2 fails as stated at the concrete input `[]`: the claim demands exactly
`max(0-1, 0) = 0` merges, but `Cluster` returns no merge sequence at all
(run-time panic). -/
theorem C2_counterexample_empty_input :
    ¬ ∃ ms : List Merge, Cluster [] = some ms := by
  simp [Cluster]

/-- C2 (amended to nonempty inputs): on `n ≥ 1` vectors `Cluster` returns
exactly `n - 1` merges, and every index in `0..n-1` appears as the `Right`
(absorbed) field of exactly one merge except a single final survivor, which
never appears as `Right`. -/
theorem C2_merge_count_and_absorption :
    ∀ vecs : List Vec, vecs ≠ [] →
      ∃ ms : List Merge, Cluster vecs = some ms ∧
        ms.length = vecs.length - 1 ∧
        ∃ surv : ℕ, surv < vecs.length ∧ surv ∉ rightsOf ms ∧
          ∀ k : ℕ, k < vecs.length → k ≠ surv → (rightsOf ms).count k = 1 := by
  intro vecs hne
  have hlen : vecs.length ≠ 0 := fun h => hne (List.length_eq_zero.mp h)
  rcases clusterLoop_inv vecs.length (vecs.length - 1) 0 (initState vecs)
    (init_inv vecs) (by omega) with ⟨s', hloop, hinv⟩
  rw [Nat.zero_add] at hinv
  refine ⟨s'.merges, ?_, hinv.mlen, ?_⟩
  · rw [Cluster, if_neg hlen, hloop]
    rfl
  · have hcard : (activeOf vecs.length s'.merges).card = 1 := by
      have := hinv.active_card
      omega
    rcases Finset.card_eq_one.mp hcard with ⟨surv, hA⟩
    have hsurvA : surv ∈ activeOf vecs.length s'.merges := by
      rw [hA]
      exact Finset.mem_singleton_self surv
    rcases mem_activeOf.mp hsurvA with ⟨hsn, hsr⟩
    refine ⟨surv, hsn, hsr, fun k hk hks => ?_⟩
    have hkA : k ∉ activeOf vecs.length s'.merges := by
      rw [hA, Finset.mem_singleton]
      exact hks
    have hkr : k ∈ rightsOf s'.merges := by
      by_contra hkr
      exact hkA (mem_activeOf.mpr ⟨hk, hkr⟩)
    exact List.count_eq_one_of_mem hinv.rnodup hkr

/-- Witness for C2's amended statement on a one-vector input. -/
theorem C2_merge_count_and_absorption_witness :
    ∃ ms : List Merge, Cluster [NewVec []] = some ms ∧
      ms.length = [NewVec []].length - 1 ∧
      ∃ surv : ℕ, surv < [NewVec []].length ∧ surv ∉ rightsOf ms ∧
        ∀ k : ℕ, k < [NewVec []].length → k ≠ surv →
          (rightsOf ms).count k = 1 :=
  C2_merge_count_and_absorption [NewVec []] (by simp)

theorem maxEntry_self_singleton (e : SimEntry) : maxEntry e [e] = e := by
  rw [maxEntry_cons, maxEntry_nil, ite_self]

/-- Any two vectors cluster in a single merge of index 1 absorbing index 0. -/
theorem cluster_pair (a b : Vec) : Cluster [a, b] = some [⟨1, 0⟩] := by
  show (clusterLoop 2 1 0 (initState [a, b])).map (fun s => s.merges) =
    some [⟨1, 0⟩]
  have h1 : initState [a, b] =
      ⟨[a, b], [⟨1, 0, (getVec [a, b] 1).Sim (getVec [a, b] 0)⟩], []⟩ := rfl
  rw [h1, clusterLoop_succ, roundStep_cons, maxEntry_self_singleton]
  rfl

/-- C9: similarity entries are only ever created with first index strictly
greater than second, and every merge `Cluster` emits records an entry's
indices directly, so `Left > Right` throughout. -/
theorem C9_merge_left_gt_right :
    (∀ (vecs : List Vec) (e : SimEntry), e ∈ initSims vecs → e.j < e.i) ∧
    (∀ (vecs : List Vec) (ms : List Merge), Cluster vecs = some ms →
      ∀ m ∈ ms, m.Right < m.Left) := by
  refine ⟨fun vecs e he => ?_, fun vecs ms hc m hm => ?_⟩
  · rcases mem_initSims.mp he with ⟨i, j, _, hj, rfl⟩
    exact hj
  · by_cases hlen : vecs.length = 0
    · rw [Cluster, if_pos hlen] at hc
      cases hc
    · rcases clusterLoop_inv vecs.length (vecs.length - 1) 0 (initState vecs)
        (init_inv vecs) (by omega) with ⟨s', hloop, hinv⟩
      rw [Cluster, if_neg hlen, hloop, Option.map_some'] at hc
      cases hc
      exact (hinv.mlt m hm).1

/-- Witness for C9 on a concrete two-vector clustering. -/
theorem C9_merge_left_gt_right_witness :
    (Merge.mk 1 0).Right < (Merge.mk 1 0).Left :=
  C9_merge_left_gt_right.2 [NewVec ["x"], NewVec []] [Merge.mk 1 0]
    (cluster_pair _ _) (Merge.mk 1 0) (List.mem_singleton_self _)

/-- C5: at every round boundary the similarity collection holds exactly one
entry per unordered pair of active indices (distinct ordered pairs, all
active, all pairs present); and each round's update drops every entry
referencing the absorbed index, recomputes every entry referencing the
survivor against the merged vectors, and carries all other entries over
unchanged. -/
theorem C5_similarity_matrix_invariant :
    (∀ (vecs : List Vec) (k : ℕ), k ≤ vecs.length - 1 →
      ∃ s, clusterLoop vecs.length k 0 (initState vecs) = some s ∧
        (s.sims.map pairKey).Nodup ∧
        (∀ e ∈ s.sims, e.j < e.i ∧ e.i ∈ activeOf vecs.length s.merges ∧
          e.j ∈ activeOf vecs.length s.merges) ∧
        (∀ p q : ℕ, p ∈ activeOf vecs.length s.merges →
          q ∈ activeOf vecs.length s.merges → q < p →
          (p, q) ∈ s.sims.map pairKey)) ∧
    (∀ (n round : ℕ) (s : ClusterState) (first : SimEntry)
        (rest : List SimEntry),
      RoundInv n round s → s.sims = first :: rest →
      ∃ s', roundStep n round s = some s' ∧
        s'.vecs = s.vecs.set (maxEntry first (first :: rest)).i
          ((getVec s.vecs (maxEntry first (first :: rest)).i).Add
            (getVec s.vecs (maxEntry first (first :: rest)).j)) ∧
        (∀ e ∈ s'.sims, e.i ≠ (maxEntry first (first :: rest)).j ∧
          e.j ≠ (maxEntry first (first :: rest)).j) ∧
        (∀ e ∈ s.sims,
          ¬(e.i = (maxEntry first (first :: rest)).j ∨
            e.j = (maxEntry first (first :: rest)).j) →
          (e.i = (maxEntry first (first :: rest)).i ∨
            e.j = (maxEntry first (first :: rest)).i) →
          (⟨e.i, e.j, (getVec s'.vecs e.i).Sim (getVec s'.vecs e.j)⟩ : SimEntry)
            ∈ s'.sims) ∧
        (∀ e ∈ s.sims,
          ¬(e.i = (maxEntry first (first :: rest)).j ∨
            e.j = (maxEntry first (first :: rest)).j) →
          ¬(e.i = (maxEntry first (first :: rest)).i ∨
            e.j = (maxEntry first (first :: rest)).i) →
          e ∈ s'.sims) ∧
        RoundInv n (round + 1) s') := by
  constructor
  · intro vecs k hk
    rcases clusterLoop_inv vecs.length k 0 (initState vecs) (init_inv vecs)
      (by omega) with ⟨s, hloop, hinv⟩
    exact ⟨s, hloop, hinv.snodup, hinv.sdom, hinv.scomplete⟩
  · intro n round s first rest hinv hs
    rcases roundStep_inv hs hinv with ⟨s', hstep, hvecs, hsims, hmerges, hinv'⟩
    refine ⟨s', hstep, hvecs, ?_, ?_, ?_, hinv'⟩
    · rw [hsims]
      exact updateSims_not_touch s'.vecs _ _
    · intro e he hj hi
      rw [hsims]
      rw [hs] at he
      exact updateSims_recompute s'.vecs _ _ e he hj hi
    · intro e he hj hi
      rw [hsims]
      rw [hs] at he
      exact updateSims_carry s'.vecs _ _ e he hj hi

/-- The two-vector input used by C5's witness. -/
noncomputable def wVecs : List Vec := [NewVec ["x"], NewVec []]

/-- The single initial similarity entry of `wVecs`. -/
noncomputable def wFirst : SimEntry :=
  ⟨1, 0, (getVec wVecs 1).Sim (getVec wVecs 0)⟩

/-- Witness for C5: both conjuncts instantiated on the concrete two-vector
state. -/
theorem C5_similarity_matrix_invariant_witness :
    (∃ s, clusterLoop wVecs.length 1 0 (initState wVecs) = some s ∧
      (s.sims.map pairKey).Nodup ∧
      (∀ e ∈ s.sims, e.j < e.i ∧ e.i ∈ activeOf wVecs.length s.merges ∧
        e.j ∈ activeOf wVecs.length s.merges) ∧
      (∀ p q : ℕ, p ∈ activeOf wVecs.length s.merges →
        q ∈ activeOf wVecs.length s.merges → q < p →
        (p, q) ∈ s.sims.map pairKey)) ∧
    (∃ s', roundStep wVecs.length 0 (initState wVecs) = some s' ∧
      s'.vecs = (initState wVecs).vecs.set (maxEntry wFirst (wFirst :: [])).i
        ((getVec (initState wVecs).vecs (maxEntry wFirst (wFirst :: [])).i).Add
          (getVec (initState wVecs).vecs (maxEntry wFirst (wFirst :: [])).j)) ∧
      (∀ e ∈ s'.sims, e.i ≠ (maxEntry wFirst (wFirst :: [])).j ∧
        e.j ≠ (maxEntry wFirst (wFirst :: [])).j) ∧
      (∀ e ∈ (initState wVecs).sims,
        ¬(e.i = (maxEntry wFirst (wFirst :: [])).j ∨
          e.j = (maxEntry wFirst (wFirst :: [])).j) →
        (e.i = (maxEntry wFirst (wFirst :: [])).i ∨
          e.j = (maxEntry wFirst (wFirst :: [])).i) →
        (⟨e.i, e.j, (getVec s'.vecs e.i).Sim (getVec s'.vecs e.j)⟩ : SimEntry)
          ∈ s'.sims) ∧
      (∀ e ∈ (initState wVecs).sims,
        ¬(e.i = (maxEntry wFirst (wFirst :: [])).j ∨
          e.j = (maxEntry wFirst (wFirst :: [])).j) →
        ¬(e.i = (maxEntry wFirst (wFirst :: [])).i ∨
          e.j = (maxEntry wFirst (wFirst :: [])).i) →
        e ∈ s'.sims) ∧
      RoundInv wVecs.length 1 s') :=
  ⟨C5_similarity_matrix_invariant.1 wVecs 1 (by rw [wVecs]; norm_num),
    C5_similarity_matrix_invariant.2 wVecs.length 0 (initState wVecs) wFirst []
      (init_inv wVecs) rfl⟩

/-! ### All-zero similarity runs (scenario C) -/

theorem Dot_of_disjoint (a b : Vec) (h : Disjoint a.M.support b.M.support) :
    a.Dot b = 0 := by
  rw [Dot_eq_sum_union]
  refine Finset.sum_eq_zero fun k hk => ?_
  by_cases hka : k ∈ a.M.support
  · rw [Finsupp.not_mem_support_iff.mp (Finset.disjoint_left.mp h hka), mul_zero]
  · rw [Finsupp.not_mem_support_iff.mp hka, zero_mul]

theorem getVec_set_eq (vecs : List Vec) (i : ℕ) (v : Vec)
    (hi : i < vecs.length) : getVec (vecs.set i v) i = v := by
  rw [getVec, List.getD_eq_get?, List.get?_set, if_pos rfl, List.get?_eq_get hi]
  rfl

theorem getVec_set_ne (vecs : List Vec) (i : ℕ) (v : Vec) (a : ℕ)
    (hne : i ≠ a) : getVec (vecs.set i v) a = getVec vecs a := by
  rw [getVec, getVec, List.getD_eq_get?, List.getD_eq_get?, List.get?_set,
    if_neg hne]

theorem NewVec_single_support (t : String) : (NewVec [t]).M.support = {t} := by
  show ((0 : String →₀ ℤ) + Finsupp.single t 1).support = {t}
  rw [zero_add]
  exact Finsupp.support_single_ne_zero t one_ne_zero

/-- The merge trace of a run in which every similarity value is zero: each
round selects the head entry and drops the absorbed index's entries. -/
def zeroLoop : ℕ → List (ℕ × ℕ) → List Merge
  | 0, _ => []
  | _ + 1, [] => []
  | k + 1, m :: restP =>
    ⟨m.1, m.2⟩ :: zeroLoop k ((m :: restP).filter (survives m.2))

theorem zeroLoop_cons (k : ℕ) (m : ℕ × ℕ) (restP : List (ℕ × ℕ)) :
    zeroLoop (k + 1) (m :: restP) =
      ⟨m.1, m.2⟩ :: zeroLoop k ((m :: restP).filter (survives m.2)) := rfl

theorem initSims_vals_zero_of_disjoint (vecs : List Vec)
    (hd : ∀ a b : ℕ, a ≠ b →
      Disjoint (getVec vecs a).M.support (getVec vecs b).M.support) :
    ∀ e ∈ initSims vecs, e.val = 0 := by
  intro e he
  rcases mem_initSims.mp he with ⟨i, j, _, hj, rfl⟩
  show (getVec vecs i).Sim (getVec vecs j) = 0
  exact Sim_of_dot_zero _ _ (Dot_of_disjoint _ _ (hd i j (by omega)))

/-- In a state whose similarity values are all zero and whose active vectors
have pairwise disjoint supports, the remaining rounds follow the head-entry
trace `zeroLoop`. -/
theorem clusterLoop_all_zero (n : ℕ) :
    ∀ (k round : ℕ) (s : ClusterState),
      RoundInv n round s → round + k ≤ n - 1 →
      (∀ e ∈ s.sims, e.val = 0) →
      (∀ a b : ℕ, a ∈ activeOf n s.merges → b ∈ activeOf n s.merges → a ≠ b →
        Disjoint (getVec s.vecs a).M.support (getVec s.vecs b).M.support) →
      ∃ s', clusterLoop n k round s = some s' ∧
        s'.merges = s.merges ++ zeroLoop k (s.sims.map pairKey) := by
  intro k
  induction k with
  | zero =>
    intro round s _ _ _ _
    exact ⟨s, rfl, by rw [zeroLoop, List.append_nil]⟩
  | succ k ih =>
    intro round s hinv hle h0 hd
    have hcard := hinv.active_card
    rcases hinv.sims_ne_nil (by omega) with ⟨first, rest, hs⟩
    have hfirst_mem : first ∈ s.sims := by
      rw [hs]
      exact List.mem_cons_self first rest
    have hmax : maxEntry first (first :: rest) = first := by
      apply maxEntry_of_no_gt
      intro x hx
      rw [h0 x (by rw [hs]; exact hx), h0 first hfirst_mem]
      exact lt_irrefl 0
    rcases roundStep_inv hs hinv with ⟨s', hstep, hvecs, hsims, hmerges, hinv'⟩
    rw [hmax] at hvecs hsims hmerges
    obtain ⟨hji, hiA, hjA⟩ := hinv.sdom first hfirst_mem
    have hact' : activeOf n s'.merges = (activeOf n s.merges).erase first.j := by
      rw [hmerges, activeOf_append]
    have hiLt : first.i < n := (mem_activeOf.mp hiA).1
    have hilen : first.i < s.vecs.length := by
      rw [hinv.vlen]
      exact hiLt
    have hd' : ∀ a b : ℕ, a ∈ activeOf n s'.merges → b ∈ activeOf n s'.merges →
        a ≠ b →
        Disjoint (getVec s'.vecs a).M.support (getVec s'.vecs b).M.support := by
      have hkey : ∀ b : ℕ, b ∈ (activeOf n s.merges).erase first.j →
          b ≠ first.i →
          Disjoint (getVec s'.vecs first.i).M.support
            (getVec s'.vecs b).M.support := by
        intro b hb hbne
        rcases Finset.mem_erase.mp hb with ⟨hbj, hbA⟩
        have hgb : getVec s'.vecs b = getVec s.vecs b := by
          rw [hvecs]
          exact getVec_set_ne _ _ _ _ fun h => hbne h.symm
        have hga : getVec s'.vecs first.i =
            (getVec s.vecs first.i).Add (getVec s.vecs first.j) := by
          rw [hvecs]
          exact getVec_set_eq _ _ _ hilen
        rw [hga, hgb]
        have hsub : ((getVec s.vecs first.i).Add (getVec s.vecs first.j)).M.support ⊆
            (getVec s.vecs first.i).M.support ∪ (getVec s.vecs first.j).M.support := by
          show ((getVec s.vecs first.i).M + (getVec s.vecs first.j).M).support ⊆ _
          exact Finsupp.support_add
        refine Finset.disjoint_of_subset_left hsub ?_
        rw [Finset.disjoint_union_left]
        exact ⟨hd first.i b hiA hbA fun h => hbne h.symm,
          hd first.j b hjA hbA fun h => hbj h.symm⟩
      intro a b ha hb hab
      rw [hact'] at ha hb
      by_cases hai : a = first.i
      · subst hai
        exact hkey b hb fun h => hab h.symm
      · by_cases hbi : b = first.i
        · subst hbi
          exact (hkey a ha hai).symm
        · have hga : getVec s'.vecs a = getVec s.vecs a := by
            rw [hvecs]
            exact getVec_set_ne _ _ _ _ fun h => hai h.symm
          have hgb : getVec s'.vecs b = getVec s.vecs b := by
            rw [hvecs]
            exact getVec_set_ne _ _ _ _ fun h => hbi h.symm
          rw [hga, hgb]
          exact hd a b (Finset.mem_erase.mp ha).2 (Finset.mem_erase.mp hb).2 hab
    have h0' : ∀ e ∈ s'.sims, e.val = 0 := by
      intro e he
      rw [hsims] at he
      rcases updateSims_vals s'.vecs first (first :: rest) e he with
        ⟨e₀, h₀, heq⟩ | hval
      · rw [heq]
        exact h0 e₀ (by rw [hs]; exact h₀)
      · rcases updateSims_source s'.vecs first (first :: rest) e he with
          ⟨e₀, h₀, hei, hej⟩
        rcases updateSims_not_touch s'.vecs first (first :: rest) e he with
          ⟨hni, hnj⟩
        rcases hinv.sdom e₀ (by rw [hs]; exact h₀) with ⟨hji₀, hiA₀, hjA₀⟩
        rw [hval]
        refine Sim_of_dot_zero _ _ (Dot_of_disjoint _ _ (hd' e.i e.j ?_ ?_ ?_))
        · rw [hact', Finset.mem_erase]
          exact ⟨hni, hei ▸ hiA₀⟩
        · rw [hact', Finset.mem_erase]
          exact ⟨hnj, hej ▸ hjA₀⟩
        · rw [hei, hej]
          omega
    rcases ih (round + 1) s' hinv' (by omega) h0' hd' with ⟨s'', hloop, hm⟩
    refine ⟨s'', ?_, ?_⟩
    · rw [clusterLoop_succ, hstep]
      exact hloop
    · have hpairs' : s'.sims.map pairKey =
          ((first :: rest).map pairKey).filter (survives first.j) := by
        rw [hsims]
        exact updateSims_map_pairKey _ _ _
      rw [hm, hmerges, hs, List.map_cons, zeroLoop_cons, hpairs', List.map_cons,
        List.append_assoc]
      rfl

/-- Scenario C's token of cluster `c`. -/
def scTok (c : ℕ) : String :=
  ["c0", "c1", "c2", "c3", "c4", "c5", "c6", "c7", "c8", "c9"].getD c ""

/-- Scenario C: ten singleton vectors sharing no tokens. -/
noncomputable def scenarioC : List Vec :=
  [NewVec ["c0"], NewVec ["c1"], NewVec ["c2"], NewVec ["c3"], NewVec ["c4"],
   NewVec ["c5"], NewVec ["c6"], NewVec ["c7"], NewVec ["c8"], NewVec ["c9"]]

theorem scenarioC_support (c : ℕ) (hc : c < 10) :
    (getVec scenarioC c).M.support = {scTok c} := by
  interval_cases c <;> exact NewVec_single_support _

theorem scenarioC_support_ge (c : ℕ) (hc : 10 ≤ c) :
    (getVec scenarioC c).M.support = ∅ := by
  have hnone : scenarioC.get? c = none := by
    rw [List.get?_eq_none]
    show scenarioC.length ≤ c
    exact hc
  rw [getVec, List.getD_eq_get?, hnone]
  rfl

theorem scTok_inj :
    ∀ a : ℕ, a < 10 → ∀ b : ℕ, b < 10 → a ≠ b → scTok a ≠ scTok b := by decide

theorem scenarioC_disjoint (a b : ℕ) (hab : a ≠ b) :
    Disjoint (getVec scenarioC a).M.support (getVec scenarioC b).M.support := by
  by_cases ha : a < 10
  · by_cases hb : b < 10
    · rw [scenarioC_support a ha, scenarioC_support b hb,
        Finset.disjoint_singleton]
      exact scTok_inj a ha b hb hab
    · rw [scenarioC_support_ge b (by omega)]
      exact Finset.disjoint_empty_right _
  · rw [scenarioC_support_ge a (by omega)]
    exact Finset.disjoint_empty_left _

/-- C4: each round's selection is the first entry attaining the maximum
cached value (strictly-greater updates, so earlier ties win), and on ten
singleton vectors sharing no tokens the clustering completes in exactly nine
merges following the head-entry tie-break trace. -/
theorem C4_argmax_tiebreak_and_scenarioC :
    (∀ (first : SimEntry) (rest : List SimEntry),
      ∃ k, (first :: rest).get? k = some (maxEntry first (first :: rest)) ∧
        (∀ x ∈ first :: rest, x.val ≤ (maxEntry first (first :: rest)).val) ∧
        ∀ m y, m < k → (first :: rest).get? m = some y →
          y.val < (maxEntry first (first :: rest)).val) ∧
    Cluster scenarioC = some [⟨1, 0⟩, ⟨2, 1⟩, ⟨3, 2⟩, ⟨4, 3⟩, ⟨5, 4⟩,
      ⟨6, 5⟩, ⟨7, 6⟩, ⟨8, 7⟩, ⟨9, 8⟩] := by
  constructor
  · intro first rest
    rcases maxEntry_first_max first (first :: rest) with ⟨heq, hle⟩ |
      ⟨k, hget, _, hle, hfirst⟩
    · refine ⟨0, ?_, fun x hx => ?_, fun m y hm _ => absurd hm (by omega)⟩
      · rw [heq]
        rfl
      · rw [heq]
        exact hle x hx
    · exact ⟨k, hget, hle, hfirst⟩
  · have h0 := initSims_vals_zero_of_disjoint scenarioC scenarioC_disjoint
    have hd : ∀ a b : ℕ, a ∈ activeOf scenarioC.length (initState scenarioC).merges →
        b ∈ activeOf scenarioC.length (initState scenarioC).merges → a ≠ b →
        Disjoint (getVec (initState scenarioC).vecs a).M.support
          (getVec (initState scenarioC).vecs b).M.support :=
      fun a b _ _ hab => scenarioC_disjoint a b hab
    rcases clusterLoop_all_zero scenarioC.length 9 0 (initState scenarioC)
      (init_inv scenarioC) (by norm_num [scenarioC]) h0 hd with ⟨s', hloop, hm⟩
    show (clusterLoop scenarioC.length (scenarioC.length - 1) 0
      (initState scenarioC)).map (fun s => s.merges) = some _
    have hlen9 : scenarioC.length - 1 = 9 := rfl
    rw [hlen9, hloop, Option.map_some']
    rw [hm]
    show some (zeroLoop 9 ((initSims scenarioC).map pairKey)) = _
    rw [initSims_map_pairKey]
    show some (zeroLoop 9 ((List.range 10).flatMap fun i =>
      (List.range i).map fun j => (i, j))) = _
    norm_num
    decide

/-- Witness for C4: the argmax characterisation at a concrete singleton
entry list, plus the concrete scenario C run. -/
theorem C4_argmax_tiebreak_and_scenarioC_witness :
    (∃ k, ((⟨5, 3, 0⟩ : SimEntry) :: []).get? k =
        some (maxEntry ⟨5, 3, 0⟩ (⟨5, 3, 0⟩ :: [])) ∧
      (∀ x ∈ (⟨5, 3, 0⟩ : SimEntry) :: [],
        x.val ≤ (maxEntry ⟨5, 3, 0⟩ (⟨5, 3, 0⟩ :: [])).val) ∧
      ∀ m y, m < k → ((⟨5, 3, 0⟩ : SimEntry) :: []).get? m = some y →
        y.val < (maxEntry ⟨5, 3, 0⟩ (⟨5, 3, 0⟩ :: [])).val) ∧
    Cluster scenarioC = some [⟨1, 0⟩, ⟨2, 1⟩, ⟨3, 2⟩, ⟨4, 3⟩, ⟨5, 4⟩,
      ⟨6, 5⟩, ⟨7, 6⟩, ⟨8, 7⟩, ⟨9, 8⟩] :=
  ⟨C4_argmax_tiebreak_and_scenarioC.1 ⟨5, 3, 0⟩ [],
    C4_argmax_tiebreak_and_scenarioC.2⟩
